import Mathlib

set_option maxHeartbeats 1000000

/-!
Verification of the layout task core (`src/components/main/layout/layout_task.rs`).

App units (`Au`) are modelled as unbounded integers: none of the verified
algorithms depend on fixed-width wraparound, they only compare and add
coordinates.
-/

namespace Servo

abbrev Au := Int

/-- Rectangles in app units, as in the `geom` crate: origin plus size. -/
structure Rect where
  x : Au
  y : Au
  w : Au
  h : Au
deriving DecidableEq

/-- `geom::Rect::union`: smallest rectangle covering both (min of origins,
max of far corners). -/
def Rect.union (a b : Rect) : Rect :=
  let ux := min a.x b.x
  let uy := min a.y b.y
  ⟨ux, uy, max (a.x + a.w) (b.x + b.w) - ux, max (a.y + a.h) (b.y + b.h) - uy⟩

/-- `Au::zero_rect()`. -/
def zero_rect : Rect := ⟨0, 0, 0, 0⟩

/-- `BaseDisplayItem`: bounds plus the tag (`extra`) naming the node handle the
item came from. Node handles are modelled as naturals. -/
structure BaseDisplayItem where
  bounds : Rect
  extra : Nat
deriving DecidableEq

/-- `DisplayItem<OpaqueNode>`: a clip item owns a nested child list; all the
non-clip item classes (solid color, text, image, border) are collapsed into
`other` because the query resolver only reads `base()` and distinguishes
clip from non-clip. -/
inductive DisplayItem where
  | clip (base : BaseDisplayItem) (child_list : List DisplayItem)
  | other (base : BaseDisplayItem)

/-- `DisplayItem::base()`. -/
def DisplayItem.base : DisplayItem → BaseDisplayItem
  | .clip b _ => b
  | .other b => b

mutual

/-- Structural size of one display item (1 plus the nested child list). -/
def DisplayItem.size : DisplayItem → Nat
  | .clip _ cl => 1 + sizeList cl
  | .other _ => 1

/-- Structural size of a display list. -/
def sizeList : List DisplayItem → Nat
  | [] => 0
  | i :: rest => DisplayItem.size i + sizeList rest

end

theorem sizeList_append (a b : List DisplayItem) :
    sizeList (a ++ b) = sizeList a + sizeList b := by
  induction a with
  | nil => simp [sizeList]
  | cons i t ih =>
    simp only [List.cons_append, sizeList, List.append_eq]
    rw [ih]; omega

theorem sizeList_reverse (l : List DisplayItem) : sizeList l.reverse = sizeList l := by
  induction l with
  | nil => rfl
  | cons i t ih =>
    simp only [List.reverse_cons, sizeList_append, sizeList, ih]; omega

/-- The point-in-bounds check of `HitTestQuery`, in the source's operand
order: `x < bounds.origin.x + bounds.size.width && bounds.origin.x <= x &&
y < bounds.origin.y + bounds.size.height && bounds.origin.y <= y`. -/
def containsPoint (x y : Au) (item : BaseDisplayItem) : Bool :=
  decide (x < item.bounds.x + item.bounds.w) && decide (item.bounds.x ≤ x) &&
    decide (y < item.bounds.y + item.bounds.h) && decide (item.bounds.y ≤ y)

/-- The second loop of the source's `hit_test`: scan the (already reversed)
list, skipping clip items (`continue`), returning the first non-clip item
whose bounds contain the point. -/
def hitNonClips (x y : Au) (l : List DisplayItem) : Option Nat :=
  match l with
  | [] => none
  | .clip _ _ :: rest => hitNonClips x y rest
  | .other b :: rest =>
    if containsPoint x y b then some b.extra else hitNonClips x y rest

mutual

/-- The source's `hit_test(x, y, list)`: first loop over `list.rev_iter()`
recursing into clip items' child lists, then (if nothing was hit) the second
loop over `list.rev_iter()` scanning non-clip items. -/
def hit_test (x y : Au) (list : List DisplayItem) : Option Nat :=
  match hitClips x y list.reverse with
  | some r => some r
  | none => hitNonClips x y list.reverse
termination_by 2 * sizeList list + 1
decreasing_by
  rw [sizeList_reverse]; omega

/-- The first loop of the source's `hit_test`, over an already reversed list:
for each `ClipDisplayItemClass`, recurse into the nested child list and
return that result if it is a hit. -/
def hitClips (x y : Au) (l : List DisplayItem) : Option Nat :=
  match l with
  | [] => none
  | .clip _ cl :: rest =>
    match hit_test x y cl with
    | some r => some r
    | none => hitClips x y rest
  | .other _ :: rest => hitClips x y rest
termination_by 2 * sizeList l
decreasing_by
  · simp only [sizeList, DisplayItem.size]; omega
  · simp only [sizeList, DisplayItem.size]; omega
  · simp only [sizeList, DisplayItem.size]; omega

end

/-- The base of a non-clip item, `none` for clip items. -/
def nonClipBase : DisplayItem → Option BaseDisplayItem
  | .clip _ _ => none
  | .other b => some b

mutual

/-- Candidate order of one display list as the specification words it: first
the candidates contributed by clip items' nested child lists (topmost clip
first), then the remaining non-clip items in reverse paint order. -/
def hitOrderList (list : List DisplayItem) : List BaseDisplayItem :=
  hitOrderClips list.reverse ++ list.reverse.filterMap nonClipBase
termination_by 2 * sizeList list + 1
decreasing_by
  rw [sizeList_reverse]; omega

/-- Candidates contributed by the clip items of an (already reversed) list. -/
def hitOrderClips (l : List DisplayItem) : List BaseDisplayItem :=
  match l with
  | [] => []
  | .clip _ cl :: rest => hitOrderList cl ++ hitOrderClips rest
  | .other _ :: rest => hitOrderClips rest
termination_by 2 * sizeList l
decreasing_by
  · simp only [sizeList, DisplayItem.size]; omega
  · simp only [sizeList, DisplayItem.size]; omega
  · simp only [sizeList, DisplayItem.size]; omega

end

/-- The loop over `display_list_collection.lists.rev_iter()` in
`handle_query`: topmost (last-painted) display list first; the first list
that yields a hit answers the query, and exhausting all lists sends the
no-hit value `Err(())`. -/
def hitTestScan (x y : Au) (ls : List (List DisplayItem)) : Except Unit Nat :=
  match ls with
  | [] => .error ()
  | dl :: rest =>
    match hit_test x y dl with
    | some r => .ok r
    | none => hitTestScan x y rest

/-- The `HitTestQuery` resolver over the cached collection (lists in paint
order, so the scan reverses them). -/
def hitTestLists (lists : List (List DisplayItem)) (x y : Au) : Except Unit Nat :=
  hitTestScan x y lists.reverse

/-- The hit-test resolver as the specification describes it: flatten all
lists from topmost down into one candidate sequence and return the first
candidate containing the point, or the no-hit value. -/
def hitTestListsSpec (lists : List (List DisplayItem)) (x y : Au) : Except Unit Nat :=
  match ((lists.reverse.map hitOrderList).flatten).find? (containsPoint x y) with
  | some b => .ok b.extra
  | none => .error ()

theorem hitNonClips_eq (x y : Au) (l : List DisplayItem) :
    hitNonClips x y l
      = ((l.filterMap nonClipBase).find? (containsPoint x y)).map (fun b => b.extra) := by
  induction l with
  | nil => rfl
  | cons i rest ih =>
    cases i with
    | clip b cl => simpa [hitNonClips, nonClipBase] using ih
    | other b =>
      simp only [hitNonClips, List.filterMap_cons, nonClipBase]
      cases h : containsPoint x y b with
      | true => simp [List.find?_cons, h]
      | false => simp [List.find?_cons, h, ih]

mutual

theorem hit_test_eq (x y : Au) (list : List DisplayItem) :
    hit_test x y list
      = ((hitOrderList list).find? (containsPoint x y)).map (fun b => b.extra) := by
  rw [hit_test, hitOrderList, List.find?_append]
  rw [hitClips_eq x y list.reverse, hitNonClips_eq x y list.reverse]
  cases (hitOrderClips list.reverse).find? (containsPoint x y) <;> simp [Option.or]
termination_by 2 * sizeList list + 1
decreasing_by rw [sizeList_reverse]; omega

theorem hitClips_eq (x y : Au) (l : List DisplayItem) :
    hitClips x y l
      = ((hitOrderClips l).find? (containsPoint x y)).map (fun b => b.extra) := by
  cases l with
  | nil => rw [hitClips, hitOrderClips]; rfl
  | cons i rest =>
    cases i with
    | clip b cl =>
      rw [hitClips, hitOrderClips, List.find?_append]
      rw [hit_test_eq x y cl, hitClips_eq x y rest]
      cases (hitOrderList cl).find? (containsPoint x y) <;> simp [Option.or]
    | other b =>
      rw [hitClips, hitOrderClips]
      exact hitClips_eq x y rest
termination_by 2 * sizeList l
decreasing_by
  · simp only [sizeList, DisplayItem.size]; omega
  · simp only [sizeList, DisplayItem.size]; omega
  · simp only [sizeList, DisplayItem.size]; omega

end

theorem hitTestScan_eq (x y : Au) (L : List (List DisplayItem)) :
    hitTestScan x y L
      = (match ((L.map hitOrderList).flatten).find? (containsPoint x y) with
         | some b => .ok b.extra
         | none => .error ()) := by
  induction L with
  | nil => rfl
  | cons dl rest ih =>
    simp only [hitTestScan, List.map_cons, List.flatten_cons, List.find?_append]
    rw [hit_test_eq]
    cases (hitOrderList dl).find? (containsPoint x y) <;> simp [Option.or, ih]

/-- One accumulator step of `union_boxes_for_node`: the first matching box
starts the accumulator, later ones are unioned in. -/
def addBox (acc : Option Rect) (r : Rect) : Option Rect :=
  match acc with
  | none => some r
  | some a => some (a.union r)

/-- The `if item.base().extra == node { ... }` step of `union_boxes_for_node`. -/
def accRect (node : Nat) (b : BaseDisplayItem) (acc : Option Rect) : Option Rect :=
  if b.extra = node then addBox acc b.bounds else acc

/-- The source's `union_boxes_for_node`: for each item, first recurse into
the item's children, then union in the item's own bounds if its tag equals
the query node. -/
def union_boxes_for_node (node : Nat) (acc : Option Rect) (l : List DisplayItem) :
    Option Rect :=
  match l with
  | [] => acc
  | .clip b cl :: rest =>
    union_boxes_for_node node (accRect node b (union_boxes_for_node node acc cl)) rest
  | .other b :: rest => union_boxes_for_node node (accRect node b acc) rest
termination_by sizeList l
decreasing_by
  · simp only [sizeList, DisplayItem.size]; omega
  · simp only [sizeList, DisplayItem.size]; omega
  · simp only [sizeList, DisplayItem.size]; omega

/-- The `ContentBoxQuery` resolver over the cached collection: scan every
display list in order, threading the optional accumulator, and reply with
`Au::zero_rect()` when no item matched. -/
def contentBoxQuery (node : Nat) (lists : List (List DisplayItem)) : Rect :=
  (lists.foldl (fun acc dl => union_boxes_for_node node acc dl) none).getD zero_rect

/-- The bounds of all items tagged with `node`, in the traversal order of
`union_boxes_for_node` (children before self, list order otherwise). -/
def boxesForNode (node : Nat) (l : List DisplayItem) : List Rect :=
  match l with
  | [] => []
  | .clip b cl :: rest =>
    boxesForNode node cl ++ (if b.extra = node then [b.bounds] else [])
      ++ boxesForNode node rest
  | .other b :: rest =>
    (if b.extra = node then [b.bounds] else []) ++ boxesForNode node rest
termination_by sizeList l
decreasing_by
  · simp only [sizeList, DisplayItem.size]; omega
  · simp only [sizeList, DisplayItem.size]; omega
  · simp only [sizeList, DisplayItem.size]; omega

/-- The content-box query as the specification words it: the union of the
bounds of all items tagged with the query node, or the zero rectangle when
the node produced no items. -/
def contentBoxQuerySpec (node : Nat) (lists : List (List DisplayItem)) : Rect :=
  match (lists.map (boxesForNode node)).flatten with
  | [] => zero_rect
  | r :: rs => rs.foldl Rect.union r

theorem accRect_eq_foldl (node : Nat) (b : BaseDisplayItem) (acc : Option Rect) :
    accRect node b acc = (if b.extra = node then [b.bounds] else []).foldl addBox acc := by
  by_cases h : b.extra = node <;> simp [accRect, h, List.foldl]

theorem union_boxes_eq (node : Nat) (l : List DisplayItem) (acc : Option Rect) :
    union_boxes_for_node node acc l = (boxesForNode node l).foldl addBox acc := by
  cases l with
  | nil => rw [union_boxes_for_node, boxesForNode]; rfl
  | cons i rest =>
    cases i with
    | clip b cl =>
      rw [union_boxes_for_node, boxesForNode, List.foldl_append, List.foldl_append]
      rw [union_boxes_eq node rest, union_boxes_eq node cl, accRect_eq_foldl]
    | other b =>
      rw [union_boxes_for_node, boxesForNode, List.foldl_append]
      rw [union_boxes_eq node rest, accRect_eq_foldl]
termination_by sizeList l
decreasing_by
  · simp only [sizeList, DisplayItem.size]; omega
  · simp only [sizeList, DisplayItem.size]; omega
  · simp only [sizeList, DisplayItem.size]; omega

theorem foldl_addBox_some (L : List Rect) (a : Rect) :
    L.foldl addBox (some a) = some (L.foldl Rect.union a) := by
  induction L generalizing a with
  | nil => rfl
  | cons r rs ih => simp [List.foldl_cons, addBox, ih]

theorem foldl_union_lists (node : Nat) (lists : List (List DisplayItem)) (acc : Option Rect) :
    lists.foldl (fun acc dl => union_boxes_for_node node acc dl) acc
      = ((lists.map (boxesForNode node)).flatten).foldl addBox acc := by
  induction lists generalizing acc with
  | nil => rfl
  | cons dl rest ih =>
    simp only [List.foldl_cons, List.map_cons, List.flatten_cons]
    rw [List.foldl_append, union_boxes_eq, ih]

/-- The source's `add_boxes_for_node` (the `ContentBoxesQuery` scan): like
`union_boxes_for_node` but pushing every matching bounds individually. -/
def add_boxes_for_node (node : Nat) (acc : List Rect) (l : List DisplayItem) :
    List Rect :=
  match l with
  | [] => acc
  | .clip b cl :: rest =>
    add_boxes_for_node node
      ((add_boxes_for_node node acc cl)
        ++ (if b.extra = node then [b.bounds] else [])) rest
  | .other b :: rest =>
    add_boxes_for_node node (acc ++ (if b.extra = node then [b.bounds] else [])) rest
termination_by sizeList l
decreasing_by
  · simp only [sizeList, DisplayItem.size]; omega
  · simp only [sizeList, DisplayItem.size]; omega
  · simp only [sizeList, DisplayItem.size]; omega

/-- The `ContentBoxesQuery` resolver over the cached collection. -/
def contentBoxesQuery (node : Nat) (lists : List (List DisplayItem)) : List Rect :=
  lists.foldl (fun acc dl => add_boxes_for_node node acc dl) []

/-! Background color selection (`handle_reflow`, display-goal branch). -/

/-- Colors as produced by `gfx::color::rgba`. The code only compares against
the fully transparent `rgba(0., 0., 0., 0.)` and defaults to the opaque white
`rgba(255., 255., 255., 255.)`; the float components are exact small values,
modelled as integers. -/
structure Color where
  r : Int
  g : Int
  b : Int
  a : Int
deriving DecidableEq

/-- `color::rgba(0., 0., 0., 0.)`, the pattern the scan skips. -/
def transparentBlack : Color := ⟨0, 0, 0, 0⟩

/-- `color::rgba(255., 255., 255., 255.)`, the default. -/
def opaqueWhite : Color := ⟨255, 255, 255, 255⟩

/-- The node type ids the background scan distinguishes:
`ElementNodeTypeId(HTMLHtmlElementTypeId)`,
`ElementNodeTypeId(HTMLBodyElementTypeId)`, and everything else. -/
inductive NodeTypeId where
  | htmlHtmlElement
  | htmlBodyElement
  | otherNode
deriving DecidableEq

/-- The html/body check of the scan, as the source's disjunction of two
type-id equality tests. -/
def isHtmlOrBody (t : NodeTypeId) : Bool :=
  decide (t = NodeTypeId.htmlHtmlElement) || decide (t = NodeTypeId.htmlBodyElement)

/-- The background-color loop of `handle_reflow`: walk the DOM in preorder
(the DOM and style resolution are external collaborators, so the input is
the preorder sequence of (type id, externally resolved background color)
pairs), and take the first html/body element whose resolved color is not
`rgba(0., 0., 0., 0.)`; without a `break` the initial opaque white stands. -/
def backgroundColorScan (dom : List (NodeTypeId × Color)) : Color :=
  match dom with
  | [] => opaqueWhite
  | (ty, c) :: rest =>
    if isHtmlOrBody ty then
      if c = transparentBlack then backgroundColorScan rest else c
    else backgroundColorScan rest

/-- The background choice as the specification words it: the first
non-transparent resolved color among the html/body-equivalent elements in
document order, defaulting to opaque white. -/
def backgroundColorSpec (dom : List (NodeTypeId × Color)) : Color :=
  ((((dom.filter (fun nc => isHtmlOrBody nc.1)).map (fun nc => nc.2)).find?
    (fun c => decide (c ≠ transparentBlack))).getD opaqueWhite)

/-! Restyle damage and the flow tree. -/

/-- Modelled from the spec: `RestyleDamage` (`layout/incremental.rs`, which is
not under `src/`) is "a finite set of independent bits naming what must be
recomputed (e.g., 'bubble widths', 'reflow', 'repaint')"; union is pointwise
disjunction over the bit domain. -/
structure RestyleDamage where
  repaint : Bool
  bubbleWidths : Bool
  reflow : Bool
deriving DecidableEq

/-- `RestyleDamage::union_in_place` / set union over the bit domain. -/
def RestyleDamage.union (a b : RestyleDamage) : RestyleDamage :=
  ⟨a.repaint || b.repaint, a.bubbleWidths || b.bubbleWidths, a.reflow || b.reflow⟩

/-- `RestyleDamage::all()`: every bit set. -/
def RestyleDamage.all : RestyleDamage := ⟨true, true, true⟩

/-- `RestyleDamage::none()`: no bit set. -/
def RestyleDamage.nonef : RestyleDamage := ⟨false, false, false⟩

/-- `RestyleDamage::is_nonempty`. -/
def RestyleDamage.is_nonempty (d : RestyleDamage) : Bool :=
  d.repaint || d.bubbleWidths || d.reflow

theorem RestyleDamage.union_all (d : RestyleDamage) :
    d.union RestyleDamage.all = RestyleDamage.all := by
  cases d; simp [RestyleDamage.union, RestyleDamage.all]

/-- `FlowFlagsInfo::flags`: only the requires-in-order-processing bit is
read by the code under verification. -/
structure FlowFlags where
  inorder : Bool
deriving DecidableEq

/-- The part of a flow's base record the verified traversals read and write:
damage bits and the flag set. -/
structure FlowBase where
  restyle_damage : RestyleDamage
  flags : FlowFlags
deriving DecidableEq

/-- The flow tree: one base record per flow, children owned by the parent. -/
inductive FlowTree (β : Type) where
  | node (b : β) (kids : List (FlowTree β))

/-- The base record at the root of a (sub)tree. -/
def FlowTree.root {β : Type} : FlowTree β → β
  | .node b _ => b

mutual

def treeSize {β : Type} : FlowTree β → Nat
  | .node _ kids => 1 + forestSize kids

def forestSize {β : Type} : List (FlowTree β) → Nat
  | [] => 0
  | t :: ts => 1 + treeSize t + forestSize ts

end

/-! Damage propagation (claim C4). -/

mutual

/-- `PropagateDamageTraversal` driven by `traverse_preorder`: process the
flow (when the all-style-damage flag is set union in the full damage set;
then, when the propagate-down image `prop` of the flow's damage is nonempty,
union it into every child's damage), then recurse into the children. The
propagate-down rule `pd` lives in `layout/incremental.rs` (not under `src/`)
and is kept as a parameter. -/
def propagateDamage (allStyle : Bool) (pd : RestyleDamage → RestyleDamage) :
    FlowTree FlowBase → FlowTree FlowBase
  | .node b kids =>
    let b1 := if allStyle then
        { b with restyle_damage := b.restyle_damage.union RestyleDamage.all }
      else b
    .node b1 (propagateForest allStyle pd (pd b1.restyle_damage) kids)
termination_by t => treeSize t
decreasing_by simp only [treeSize]; omega

/-- The source's `for kid_ctx in flow::child_iter(flow)` update (guarded by
`prop.is_nonempty()`) fused with the preorder descent into each child: the
guard becomes a per-child conditional union with the same effect. -/
def propagateForest (allStyle : Bool) (pd : RestyleDamage → RestyleDamage)
    (prop : RestyleDamage) :
    List (FlowTree FlowBase) → List (FlowTree FlowBase)
  | [] => []
  | .node kb kkids :: ts =>
    propagateDamage allStyle pd
      (.node { kb with restyle_damage :=
          if prop.is_nonempty then kb.restyle_damage.union prop
          else kb.restyle_damage } kkids)
      :: propagateForest allStyle pd prop ts
termination_by l => forestSize l
decreasing_by
  · simp only [treeSize, forestSize]; omega
  · simp only [forestSize]; omega

end

/-- The damage of the root flow of a (sub)tree. -/
def rootDamage (t : FlowTree FlowBase) : RestyleDamage :=
  t.root.restyle_damage

mutual

/-- `ComputeDamageTraversal` driven by `traverse_postorder`: after the
children's own pull steps, union the propagate-up image (`pu`, also from
`layout/incremental.rs`) of each child's damage into the flow's damage. -/
def computeDamage (pu : RestyleDamage → RestyleDamage) :
    FlowTree FlowBase → FlowTree FlowBase
  | .node b kids =>
    let kids1 := computeDamageForest pu kids
    .node { b with restyle_damage :=
        kids1.foldl (fun d k => d.union (pu (rootDamage k))) b.restyle_damage } kids1
termination_by t => treeSize t
decreasing_by simp only [treeSize]; omega

def computeDamageForest (pu : RestyleDamage → RestyleDamage) :
    List (FlowTree FlowBase) → List (FlowTree FlowBase)
  | [] => []
  | t :: ts => computeDamage pu t :: computeDamageForest pu ts
termination_by l => forestSize l
decreasing_by
  · simp only [forestSize]; omega
  · simp only [forestSize]; omega

end

mutual

/-- Every flow in the tree carries the complete damage set. -/
def treeAllDamage : FlowTree FlowBase → Bool
  | .node b kids =>
    decide (b.restyle_damage = RestyleDamage.all) && forestAllDamage kids

def forestAllDamage : List (FlowTree FlowBase) → Bool
  | [] => true
  | t :: ts => treeAllDamage t && forestAllDamage ts

end

mutual

theorem propagateDamage_all (pd : RestyleDamage → RestyleDamage)
    (t : FlowTree FlowBase) : treeAllDamage (propagateDamage true pd t) = true := by
  cases t with
  | node b kids =>
    rw [propagateDamage]
    simp only [if_true, RestyleDamage.union_all, treeAllDamage]
    rw [propagateForest_all]
    simp
termination_by treeSize t
decreasing_by simp only [treeSize]; omega

theorem propagateForest_all (pd : RestyleDamage → RestyleDamage)
    (prop : RestyleDamage) (l : List (FlowTree FlowBase)) :
    forestAllDamage (propagateForest true pd prop l) = true := by
  cases l with
  | nil => rw [propagateForest]; rfl
  | cons t ts =>
    cases t with
    | node kb kkids =>
      rw [propagateForest, forestAllDamage, propagateDamage_all, propagateForest_all]
      rfl
termination_by forestSize l
decreasing_by
  · simp only [treeSize, forestSize]; omega
  · simp only [forestSize]; omega

end

/-! The assign-heights-and-store-overflow pass (claim C5). -/

/-- `AssignHeightsAndStoreOverflowTraversal::should_process`:
`!flow::base(flow).flags_info.flags.inorder()`. -/
def should_process (b : FlowBase) : Bool := !b.flags.inorder

mutual

/-- `AssignHeightsAndStoreOverflowTraversal` driven by `traverse_postorder`
(the driver in `layout/flow.rs` is not under `src/`; per the specification
it visits children first and then consults `should_process` before calling
`process`). The per-flow computation `ah` — `assign_height` followed by
`store_overflow`, reading the flow and its already-finalized children — is
CSS box-model code external to this core and is kept as a parameter. -/
def assignHeightsPass (ah : FlowBase → List FlowBase → FlowBase) :
    FlowTree FlowBase → FlowTree FlowBase
  | .node b kids =>
    let kids1 := assignHeightsForest ah kids
    .node (if should_process b then ah b (kids1.map FlowTree.root) else b) kids1
termination_by t => treeSize t
decreasing_by simp only [treeSize]; omega

def assignHeightsForest (ah : FlowBase → List FlowBase → FlowBase) :
    List (FlowTree FlowBase) → List (FlowTree FlowBase)
  | [] => []
  | t :: ts => assignHeightsPass ah t :: assignHeightsForest ah ts
termination_by l => forestSize l
decreasing_by
  · simp only [forestSize]; omega
  · simp only [forestSize]; omega

end

mutual

/-- The pass as the specification words it: a flow flagged
requires-in-order-processing is skipped (its base left untouched), every
other flow gets `assign_height`/`store_overflow` run on it. -/
def assignHeightsSpec (ah : FlowBase → List FlowBase → FlowBase) :
    FlowTree FlowBase → FlowTree FlowBase
  | .node b kids =>
    let kids1 := assignHeightsSpecForest ah kids
    .node (if b.flags.inorder then b else ah b (kids1.map FlowTree.root)) kids1
termination_by t => treeSize t
decreasing_by simp only [treeSize]; omega

def assignHeightsSpecForest (ah : FlowBase → List FlowBase → FlowBase) :
    List (FlowTree FlowBase) → List (FlowTree FlowBase)
  | [] => []
  | t :: ts => assignHeightsSpec ah t :: assignHeightsSpecForest ah ts
termination_by l => forestSize l
decreasing_by
  · simp only [forestSize]; omega
  · simp only [forestSize]; omega

end

mutual

theorem assignHeightsPass_eq_spec (ah : FlowBase → List FlowBase → FlowBase)
    (t : FlowTree FlowBase) : assignHeightsPass ah t = assignHeightsSpec ah t := by
  cases t with
  | node b kids =>
    rw [assignHeightsPass, assignHeightsSpec, assignHeightsForest_eq_spec]
    cases h : b.flags.inorder <;> simp [should_process, h]
termination_by treeSize t
decreasing_by simp only [treeSize]; omega

theorem assignHeightsForest_eq_spec (ah : FlowBase → List FlowBase → FlowBase)
    (l : List (FlowTree FlowBase)) :
    assignHeightsForest ah l = assignHeightsSpecForest ah l := by
  cases l with
  | nil => rw [assignHeightsForest, assignHeightsSpecForest]
  | cons t ts =>
    rw [assignHeightsForest, assignHeightsSpecForest,
      assignHeightsPass_eq_spec, assignHeightsForest_eq_spec]
termination_by forestSize l
decreasing_by
  · simp only [forestSize]; omega
  · simp only [forestSize]; omega

end

/-! Constraint solving: the three passes, sequentially and on the parallel
scheduler (claims C7, C8). -/

mutual

/-- A generic postorder pass (`traverse_postorder` driving a
`PostorderFlowTraversal` whose `process` reads the flow and its already
processed children): each flow's new base is `g` of its old base and its
children's new bases. `BubbleWidthsTraversal` is this pass with `g` the
external `bubble_widths` computation. -/
def postorderMap {β : Type} (g : β → List β → β) : FlowTree β → FlowTree β
  | .node b kids =>
    let kids1 := postorderForest g kids
    .node (g b (kids1.map FlowTree.root)) kids1
termination_by t => treeSize t
decreasing_by simp only [treeSize]; omega

def postorderForest {β : Type} (g : β → List β → β) :
    List (FlowTree β) → List (FlowTree β)
  | [] => []
  | t :: ts => postorderMap g t :: postorderForest g ts
termination_by l => forestSize l
decreasing_by
  · simp only [forestSize]; omega
  · simp only [forestSize]; omega

end

mutual

/-- `AssignWidthsTraversal` driven by `traverse_preorder` (the identical
sequential traversal in both solver paths, lines 457 and 489): each flow's
new base is `aw` of its parent's already assigned new base (`none` at the
root) and its own base, computed before its children are visited. -/
def preorderMap {β : Type} (aw : Option β → β → β) (parent : Option β) :
    FlowTree β → FlowTree β
  | .node b kids =>
    let b1 := aw parent b
    .node b1 (preorderForest aw b1 kids)
termination_by t => treeSize t
decreasing_by simp only [treeSize]; omega

def preorderForest {β : Type} (aw : Option β → β → β) (parent : β) :
    List (FlowTree β) → List (FlowTree β)
  | [] => []
  | t :: ts => preorderMap aw (some parent) t :: preorderForest aw parent ts
termination_by l => forestSize l
decreasing_by
  · simp only [forestSize]; omega
  · simp only [forestSize]; omega

end

/-- `LayoutTask::solve_constraints`: bubble widths (postorder), assign
widths (preorder, the root having no parent), then assign heights and store
overflow (postorder with the in-order skip). The per-flow computations
`bw`, `aw`, `ah` are the external flow-class box-model methods. -/
def solve_constraints (bw : FlowBase → List FlowBase → FlowBase)
    (aw : Option FlowBase → FlowBase → FlowBase)
    (ah : FlowBase → List FlowBase → FlowBase)
    (t : FlowTree FlowBase) : FlowTree FlowBase :=
  assignHeightsPass ah (preorderMap aw none (postorderMap bw t))

/-- The per-flow step of the third pass seen as a postorder `g`: skip the
flow when it requires in-order processing, else run
`assign_height`/`store_overflow`. -/
def heightsStep (ah : FlowBase → List FlowBase → FlowBase)
    (b : FlowBase) (ks : List FlowBase) : FlowBase :=
  if should_process b then ah b ks else b

mutual

theorem assignHeightsPass_eq_postorder (ah : FlowBase → List FlowBase → FlowBase)
    (t : FlowTree FlowBase) :
    assignHeightsPass ah t = postorderMap (heightsStep ah) t := by
  cases t with
  | node b kids =>
    rw [assignHeightsPass, postorderMap, assignHeightsForest_eq_postorder]
    rw [heightsStep]
termination_by treeSize t
decreasing_by simp only [treeSize]; omega

theorem assignHeightsForest_eq_postorder (ah : FlowBase → List FlowBase → FlowBase)
    (l : List (FlowTree FlowBase)) :
    assignHeightsForest ah l = postorderForest (heightsStep ah) l := by
  cases l with
  | nil => rw [assignHeightsForest, postorderForest]
  | cons t ts =>
    rw [assignHeightsForest, postorderForest,
      assignHeightsPass_eq_postorder, assignHeightsForest_eq_postorder]
termination_by forestSize l
decreasing_by
  · simp only [forestSize]; omega
  · simp only [forestSize]; omega

end

/-! The parallel postorder scheduler, modelled from the spec
(`layout/parallel.rs` is not under `src/`): the pool is seeded with the
leaf set and a flow is processed only once all of its children have
completed the phase, exactly once per flow. The step relation below admits
every interleaving (any worker count) that respects those two rules. -/

mutual

def treeMap {β γ : Type} (f : β → γ) : FlowTree β → FlowTree γ
  | .node b kids => .node (f b) (forestMap f kids)
termination_by t => treeSize t
decreasing_by simp only [treeSize]; omega

def forestMap {β γ : Type} (f : β → γ) : List (FlowTree β) → List (FlowTree γ)
  | [] => []
  | t :: ts => treeMap f t :: forestMap f ts
termination_by l => forestSize l
decreasing_by
  · simp only [forestSize]; omega
  · simp only [forestSize]; omega

end

/-- A tree whose flows await processing: every base paired with `none`. -/
def blankTree {β : Type} (t : FlowTree β) : FlowTree (β × Option β) :=
  treeMap (fun b => (b, none)) t

/-- Read off the phase results of an annotated tree (defaulting to the old
base where no result was filled in). -/
def stripTree {β : Type} (u : FlowTree (β × Option β)) : FlowTree β :=
  treeMap (fun p => p.2.getD p.1) u

/-- The completed results of a child list: `some` their new bases when all
children have finished the phase. -/
def kidVals {β : Type} : List (FlowTree (β × Option β)) → Option (List β)
  | [] => some []
  | .node (_, none) _ :: _ => none
  | .node (_, some v) _ :: us => (kidVals us).map (fun vs => v :: vs)

mutual

/-- Every flow of the annotated tree has its phase result filled in. -/
def treeFilled {β : Type} : FlowTree (β × Option β) → Bool
  | .node p kids => p.2.isSome && forestFilled kids

def forestFilled {β : Type} : List (FlowTree (β × Option β)) → Bool
  | [] => true
  | t :: ts => treeFilled t && forestFilled ts

end

/-- Modelled from the spec: one scheduling step of a parallel postorder
phase. Some worker processes a still unprocessed flow all of whose children
have completed the phase — anywhere in the tree (`cong` walks to it). This
relation contains every execution of the work-stealing pool at any worker
count: each step is one worker's `process`, in any order the
children-before-parent rule and the exactly-once rule allow. -/
inductive PStep {β : Type} (g : β → List β → β) :
    FlowTree (β × Option β) → FlowTree (β × Option β) → Prop where
  | fill (b : β) (kids : List (FlowTree (β × Option β))) (vals : List β)
      (h : kidVals kids = some vals) :
      PStep g (.node (b, none) kids) (.node (b, some (g b vals)) kids)
  | cong (p : β × Option β) (pre post : List (FlowTree (β × Option β)))
      (t t' : FlowTree (β × Option β)) (h : PStep g t t') :
      PStep g (.node p (pre ++ t :: post)) (.node p (pre ++ t' :: post))

/-- A complete run of one parallel postorder phase over the tree `t`:
starting from the fully unprocessed tree, some interleaving of steps fills
every flow, and `t'` is the resulting tree of new bases. -/
def ParPhase {β : Type} (g : β → List β → β) (t t' : FlowTree β) : Prop :=
  ∃ u, Relation.ReflTransGen (PStep g) (blankTree t) u ∧ treeFilled u = true ∧
    t' = stripTree u

mutual

/-- The scheduler invariant tying an annotated tree to the input tree `t`:
same shape, original bases in the first components, and any filled result
equals the flow's sequential postorder value. -/
def OkT {β : Type} (g : β → List β → β) :
    FlowTree β → FlowTree (β × Option β) → Prop
  | .node b kids, .node p kids' =>
    p.1 = b ∧
      (p.2 = none ∨ p.2 = some (postorderMap g (FlowTree.node b kids)).root) ∧
      OkF g kids kids'
termination_by t _ => treeSize t
decreasing_by simp only [treeSize]; omega

def OkF {β : Type} (g : β → List β → β) :
    List (FlowTree β) → List (FlowTree (β × Option β)) → Prop
  | [], [] => True
  | [], _ :: _ => False
  | _ :: _, [] => False
  | t :: ts, u :: us => OkT g t u ∧ OkF g ts us
termination_by l _ => forestSize l
decreasing_by
  · simp only [forestSize]; omega
  · simp only [forestSize]; omega

end

theorem postorderMap_root {β : Type} (g : β → List β → β) (b : β)
    (ks : List (FlowTree β)) :
    (postorderMap g (FlowTree.node b ks)).root
      = g b ((postorderForest g ks).map FlowTree.root) := by
  rw [postorderMap]; rfl

mutual

theorem okT_blank {β : Type} (g : β → List β → β) (t : FlowTree β) :
    OkT g t (blankTree t) := by
  cases t with
  | node b kids =>
    rw [blankTree, treeMap, OkT]
    exact ⟨rfl, Or.inl rfl, okF_blank g kids⟩
termination_by treeSize t
decreasing_by simp only [treeSize]; omega

theorem okF_blank {β : Type} (g : β → List β → β) (ks : List (FlowTree β)) :
    OkF g ks (forestMap (fun b => (b, none)) ks) := by
  cases ks with
  | nil => rw [forestMap, OkF]; trivial
  | cons t ts =>
    rw [forestMap, OkF]
    have h := okT_blank g t
    rw [blankTree] at h
    exact ⟨h, okF_blank g ts⟩
termination_by forestSize ks
decreasing_by
  · simp only [forestSize]; omega
  · simp only [forestSize]; omega

end

theorem okF_kidVals {β : Type} (g : β → List β → β) :
    ∀ (ks : List (FlowTree β)) (us : List (FlowTree (β × Option β)))
      (vals : List β), OkF g ks us → kidVals us = some vals →
      vals = (postorderForest g ks).map FlowTree.root := by
  intro ks
  induction ks with
  | nil =>
    intro us vals hok hkv
    cases us with
    | nil =>
      rw [kidVals] at hkv
      cases hkv
      rw [postorderForest]; rfl
    | cons u us' => rw [OkF] at hok; exact hok.elim
  | cons t ts ih =>
    intro us vals hok hkv
    cases us with
    | nil => rw [OkF] at hok; exact hok.elim
    | cons u us' =>
      rw [OkF] at hok
      obtain ⟨h1, h2⟩ := hok
      cases t with
      | node b kids =>
        cases u with
        | node p kids' =>
          obtain ⟨pb, pv⟩ := p
          rw [OkT] at h1
          obtain ⟨hb, hv, hkids⟩ := h1
          dsimp only at hb hv
          cases hv with
          | inl hnone =>
            subst hnone
            rw [kidVals] at hkv
            cases hkv
          | inr hsome =>
            subst hsome
            rw [kidVals] at hkv
            cases hkv2 : kidVals us' with
            | none => rw [hkv2] at hkv; cases hkv
            | some vs =>
              rw [hkv2, Option.map_some'] at hkv
              cases hkv
              rw [postorderForest, List.map_cons, ih us' vs h2 hkv2]

theorem okF_replace {β : Type} (g : β → List β → β)
    (s s' : FlowTree (β × Option β))
    (hrep : ∀ x : FlowTree β, OkT g x s → OkT g x s') :
    ∀ (pre : List (FlowTree (β × Option β))) (ks : List (FlowTree β))
      (post : List (FlowTree (β × Option β))),
      OkF g ks (pre ++ s :: post) → OkF g ks (pre ++ s' :: post) := by
  intro pre
  induction pre with
  | nil =>
    intro ks post hok
    cases ks with
    | nil =>
      rw [List.nil_append] at hok
      rw [OkF] at hok; exact hok.elim
    | cons k ks' =>
      rw [List.nil_append] at hok ⊢
      rw [OkF] at hok ⊢
      exact ⟨hrep k hok.1, hok.2⟩
  | cons q pre' ih =>
    intro ks post hok
    cases ks with
    | nil =>
      rw [List.cons_append] at hok
      rw [OkF] at hok; exact hok.elim
    | cons k ks' =>
      rw [List.cons_append] at hok ⊢
      rw [OkF] at hok ⊢
      exact ⟨hok.1, ih ks' post hok.2⟩

theorem okT_step {β : Type} (g : β → List β → β)
    {u u' : FlowTree (β × Option β)} (hs : PStep g u u') :
    ∀ t : FlowTree β, OkT g t u → OkT g t u' := by
  induction hs with
  | fill b kids vals hkv =>
    intro t hok
    cases t with
    | node b0 ks =>
      rw [OkT] at hok ⊢
      obtain ⟨hb, hv, hkids⟩ := hok
      refine ⟨hb, Or.inr ?_, hkids⟩
      have hvals := okF_kidVals g ks kids vals hkids hkv
      have hb' : b = b0 := hb
      dsimp only
      rw [postorderMap_root, hvals, hb']
  | cong p pre post s s' hstep ih =>
    intro t hok
    cases t with
    | node b0 ks =>
      rw [OkT] at hok ⊢
      exact ⟨hok.1, hok.2.1, okF_replace g s s' ih pre ks post hok.2.2⟩

theorem okT_star {β : Type} (g : β → List β → β)
    {u u' : FlowTree (β × Option β)}
    (hs : Relation.ReflTransGen (PStep g) u u') (t : FlowTree β)
    (hok : OkT g t u) : OkT g t u' := by
  induction hs with
  | refl => exact hok
  | tail hsteps hstep ih => exact okT_step g hstep t ih

theorem postorderMap_node {β : Type} (g : β → List β → β) (b : β)
    (ks : List (FlowTree β)) :
    postorderMap g (FlowTree.node b ks)
      = FlowTree.node (g b ((postorderForest g ks).map FlowTree.root))
          (postorderForest g ks) := by
  rw [postorderMap]

theorem stripTree_node {β : Type} (p : β × Option β)
    (kids' : List (FlowTree (β × Option β))) :
    stripTree (FlowTree.node p kids')
      = FlowTree.node (p.2.getD p.1)
          (forestMap (fun q => q.2.getD q.1) kids') := by
  unfold stripTree
  rw [treeMap]

mutual

theorem okT_filled {β : Type} (g : β → List β → β) (t : FlowTree β)
    (u : FlowTree (β × Option β)) (hok : OkT g t u)
    (hf : treeFilled u = true) : stripTree u = postorderMap g t :=
  match t, u, hok, hf with
  | .node b ks, .node p kids', hok, hf => by
    rw [OkT] at hok
    obtain ⟨hb, hv, hkids⟩ := hok
    rw [treeFilled] at hf
    rw [Bool.and_eq_true] at hf
    cases hv with
    | inl hnone => rw [hnone] at hf; simp at hf
    | inr hsome =>
      have hforest := okF_filled g ks kids' hkids hf.2
      have hfirst : p.2.getD p.1
          = g b ((postorderForest g ks).map FlowTree.root) := by
        rw [hsome, postorderMap_root]; rfl
      rw [stripTree_node, postorderMap_node, hfirst, hforest]
termination_by treeSize t
decreasing_by all_goals ((try simp only [treeSize, forestSize]); omega)

theorem okF_filled {β : Type} (g : β → List β → β) (ks : List (FlowTree β))
    (us : List (FlowTree (β × Option β))) (hok : OkF g ks us)
    (hf : forestFilled us = true) :
    forestMap (fun q => q.2.getD q.1) us = postorderForest g ks :=
  match ks, us, hok, hf with
  | [], [], _, _ => by rw [forestMap, postorderForest]
  | [], u :: us', hok, _ => by rw [OkF] at hok; exact hok.elim
  | t :: ts, [], hok, _ => by rw [OkF] at hok; exact hok.elim
  | t :: ts, u :: us', hok, hf => by
    rw [OkF] at hok
    rw [forestFilled, Bool.and_eq_true] at hf
    rw [forestMap, postorderForest]
    have h1 : forestMap (fun q => q.2.getD q.1) us' = postorderForest g ts :=
      okF_filled g ts us' hok.2 hf.2
    have h2 : stripTree u = postorderMap g t := okT_filled g t u hok.1 hf.1
    unfold stripTree at h2
    rw [h1, h2]
termination_by forestSize ks
decreasing_by all_goals ((try simp only [treeSize, forestSize]); omega)

end

/-- Any complete parallel run of a postorder phase computes exactly the
sequential postorder pass. -/
theorem parPhase_eq {β : Type} (g : β → List β → β) (t t' : FlowTree β)
    (h : ParPhase g t t') : t' = postorderMap g t := by
  obtain ⟨u, hstar, hfill, hstrip⟩ := h
  have h0 := okT_star g hstar t (okT_blank g t)
  rw [hstrip]
  exact okT_filled g t u h0 hfill

/-- Modelled from the spec: `solve_constraints_parallel`'s observable
behaviour — bubble widths on the pool (any complete interleaving), the
same sequential preorder assign-widths traversal as the sequential path,
then assign heights / store overflow on the pool, with the same
`should_process` in-order skip as the sequential pass. -/
def ParallelSolve (bw : FlowBase → List FlowBase → FlowBase)
    (aw : Option FlowBase → FlowBase → FlowBase)
    (ah : FlowBase → List FlowBase → FlowBase)
    (t t' : FlowTree FlowBase) : Prop :=
  ∃ t1 t2, ParPhase bw t t1 ∧ t2 = preorderMap aw none t1 ∧
    ParPhase (heightsStep ah) t2 t'

/-! The task state, message protocol and handlers. -/

/-- `DocumentDamageLevel` of the script–layout interface (the `script` crate
is not under `src/`; the handler matches only `ContentChangedDocumentDamage`
for the all-style-damage flag and `ReflowDocumentDamage` to skip selector
matching, everything else falls to the catch-all arms). -/
inductive DocumentDamageLevel where
  | reflowDocumentDamage
  | matchSelectorsDocumentDamage
  | contentChangedDocumentDamage
deriving DecidableEq

/-- The reflow goal: `ReflowForDisplay` or the script-query goal. -/
inductive ReflowGoal where
  | reflowForDisplay
  | reflowForScriptQuery
deriving DecidableEq

abbrev ScreenSize := Au × Au

/-- `Au::from_px`: 60 app units per pixel. -/
def Au.from_px (px : Int) : Au := px * 60

/-- The all-style-damage computation at the top of `handle_reflow`: the
match on the damage level, then forced to true when the recorded screen
size differs from the incoming viewport size. -/
def allStyleDamageFlag (level : DocumentDamageLevel)
    (screen_size current_screen_size : ScreenSize) : Bool :=
  (match level with
   | .contentChangedDocumentDamage => true
   | _ => false)
  || decide (screen_size ≠ current_screen_size)

abbrev DisplayListCollection := List (List DisplayItem)

/-- The `Reflow` request data the handler computes with: damage level, goal
and window size in px (the url, root handle and reply channels are
routing). -/
structure Reflow where
  damage_level : DocumentDamageLevel
  goal : ReflowGoal
  window_size : Int × Int

/-- The fields of `LayoutTask` the verified handlers read or write. The
worker pool is represented by `some` of its configured thread count. The
`reaped` log records the layout-data handles released by
`handle_reap_layout_data` (which frees external per-node data). -/
structure LayoutTaskState where
  screen_size : ScreenSize
  display_list_collection : Option DisplayListCollection
  parallel_traversal : Option Nat
  reaped : List Nat

/-- `LayoutTask::new`: zero screen size, no cached display list, and a
worker pool only when the configured thread count is not one. -/
def LayoutTask.new (layout_threads : Nat) : LayoutTaskState :=
  { screen_size := (0, 0),
    display_list_collection := none,
    parallel_traversal :=
      if layout_threads ≠ 1 then some layout_threads else none,
    reaped := [] }

/-- Which solver `handle_reflow`'s dispatch match picks. -/
inductive SolverPath where
  | sequential
  | parallel
deriving DecidableEq

/-- The dispatch match of `handle_reflow` on `self.parallel_traversal`. -/
def solver_path (pool : Option Nat) : SolverPath :=
  match pool with
  | none => .sequential
  | some _ => .parallel

/-- `LayoutTask::solve_constraints_parallel`: `fail!`s (modelled as
`Except.error ()`) when no parallel traversal is configured; otherwise the
pool runs the two postorder phases around the same sequential assign-widths
traversal. The pool's scheduling is modelled by `ParPhase`; its result is
schedule independent (`parPhase_eq`), so the `ok` value is that common
result. -/
def solve_constraints_parallel (pool : Option Nat)
    (bw : FlowBase → List FlowBase → FlowBase)
    (aw : Option FlowBase → FlowBase → FlowBase)
    (ah : FlowBase → List FlowBase → FlowBase)
    (t : FlowTree FlowBase) : Except Unit (FlowTree FlowBase) :=
  match pool with
  | none => .error ()
  | some _ =>
    .ok (postorderMap (heightsStep ah)
      (preorderMap aw none (postorderMap bw t)))

/-- The external collaborators `handle_reflow` drives: the per-flow
box-model computations, the damage propagation rules, the display-list
builder, the styled DOM preorder with its resolved background colors, and
the flow tree the constructor produced for this document. -/
structure ReflowEnv where
  bw : FlowBase → List FlowBase → FlowBase
  aw : Option FlowBase → FlowBase → FlowBase
  ah : FlowBase → List FlowBase → FlowBase
  pd : RestyleDamage → RestyleDamage
  pu : RestyleDamage → RestyleDamage
  build : FlowTree FlowBase → DisplayListCollection
  dom : List (NodeTypeId × Color)
  flow_tree : FlowTree FlowBase

/-- `RenderMsg(render_layer)` as far as the claims observe it: the built
collection and the chosen background color (the pixel size travels with
them in the source). -/
structure RenderLayer where
  display_list_collection : DisplayListCollection
  color : Color

/-- The damage-propagation and constraint-solving pipeline of
`handle_reflow`, producing the solved layout root: propagate damage (push
then pull), then dispatch on the worker pool. -/
def solvedLayoutRoot (env : ReflowEnv) (s : LayoutTaskState) (data : Reflow) :
    FlowTree FlowBase :=
  let all_style_damage := allStyleDamageFlag data.damage_level s.screen_size
      (Au.from_px data.window_size.1, Au.from_px data.window_size.2)
  let damaged := computeDamage env.pu
      (propagateDamage all_style_damage env.pd env.flow_tree)
  match s.parallel_traversal with
  | none => solve_constraints env.bw env.aw env.ah damaged
  | some _ =>
    postorderMap (heightsStep env.ah)
      (preorderMap env.aw none (postorderMap env.bw damaged))

/-- `LayoutTask::handle_reflow`: record the new screen size, run the
pipeline, and only when the goal is `ReflowForDisplay` build the display
list collection, pick the background color, cache the collection and send
it to the renderer; any other goal builds nothing and leaves the cache
untouched. -/
def handle_reflow (env : ReflowEnv) (s : LayoutTaskState) (data : Reflow) :
    LayoutTaskState × List RenderLayer :=
  let s1 := { s with screen_size :=
      (Au.from_px data.window_size.1, Au.from_px data.window_size.2) }
  let layout_root := solvedLayoutRoot env s data
  if data.goal = ReflowGoal.reflowForDisplay then
    let dlc := env.build layout_root
    let color := backgroundColorScan env.dom
    ({ s1 with display_list_collection := some dlc },
      [{ display_list_collection := dlc, color := color }])
  else (s1, [])

/-- `LayoutQuery` of the script–layout interface. -/
inductive LayoutQuery where
  | contentBox (node : Nat)
  | contentBoxes (node : Nat)
  | hitTest (x y : Au)

/-- A query reply, or the fatal unwrap of an absent cached collection. -/
inductive QueryOutcome where
  | fatal
  | contentBoxResponse (r : Rect)
  | contentBoxesResponse (rs : List Rect)
  | hitTestResponse (r : Except Unit Nat)

/-- `LayoutTask::handle_query`: every branch unwraps the cached
display-list collection (`.as_ref().unwrap()`), which is fatal when it was
never populated; with a cache present each query kind runs its resolver. -/
def handle_query (cache : Option DisplayListCollection) (q : LayoutQuery) :
    QueryOutcome :=
  match q with
  | .contentBox node =>
    match cache with
    | none => .fatal
    | some c => .contentBoxResponse (contentBoxQuery node c)
  | .contentBoxes node =>
    match cache with
    | none => .fatal
    | some c => .contentBoxesResponse (contentBoxesQuery node c)
  | .hitTest x y =>
    match cache with
    | none => .fatal
    | some c => .hitTestResponse (hitTestLists c x y)

/-- `Msg`: the inbound messages of the task loop. -/
inductive Msg where
  | addStylesheetMsg
  | reflowMsg (data : Reflow)
  | queryMsg (q : LayoutQuery)
  | reapLayoutDataMsg (handle : Nat)
  | prepareToExitMsg
  | exitNowMsg

/-- Outcome of the quiescent `prepare_to_exit` loop over the remaining
inbound messages: a clean exit carrying the log of reap requests processed,
the fatal `fail!` on any other message kind, or still blocked in `recv`
when the modelled stream ends. -/
inductive ExitLoopOutcome where
  | exited (reaped : List Nat)
  | fatal
  | waiting (reaped : List Nat)

/-- The loop of `LayoutTask::prepare_to_exit`: accept and process
`ReapLayoutDataMsg`, exit on `ExitNowMsg`, and `fail!` on every other
message kind (the source's catch-all arm, spelled out per constructor so
the equations do not overlap). -/
def prepare_to_exit_loop (reaped : List Nat) (msgs : List Msg) :
    ExitLoopOutcome :=
  match msgs with
  | [] => .waiting reaped
  | .reapLayoutDataMsg h :: rest => prepare_to_exit_loop (reaped ++ [h]) rest
  | .exitNowMsg :: _ => .exited reaped
  | .addStylesheetMsg :: _ => .fatal
  | .reflowMsg _ :: _ => .fatal
  | .queryMsg _ :: _ => .fatal
  | .prepareToExitMsg :: _ => .fatal

/-- What one `handle_request` dispatch does with a message (and, for
`PrepareToExitMsg`, with the rest of the inbound stream, which the inner
quiescent loop consumes after sending the acknowledgement). -/
inductive RequestResult where
  | continued (s : LayoutTaskState)
  | quiescent (r : ExitLoopOutcome)
  | exitedNow

/-- `LayoutTask::handle_request`: dispatch one message. `AddStylesheetMsg`
mutates only the external stylist; a query reads the cache and replies
without changing task state; `PrepareToExitMsg` acknowledges and enters
the quiescent loop; `ExitNowMsg` shuts the worker down. -/
def handle_request (env : ReflowEnv) (s : LayoutTaskState) (m : Msg)
    (pending : List Msg) : RequestResult :=
  match m with
  | .addStylesheetMsg => .continued s
  | .reflowMsg d => .continued (handle_reflow env s d).1
  | .queryMsg _ => .continued s
  | .reapLayoutDataMsg h => .continued { s with reaped := s.reaped ++ [h] }
  | .prepareToExitMsg => .quiescent (prepare_to_exit_loop s.reaped pending)
  | .exitNowMsg => .exitedNow

theorem prepare_loop_reaps_then_exit (r hs : List Nat) (rest : List Msg) :
    prepare_to_exit_loop r (hs.map Msg.reapLayoutDataMsg ++ Msg.exitNowMsg :: rest)
      = ExitLoopOutcome.exited (r ++ hs) := by
  induction hs generalizing r with
  | nil => simp [prepare_to_exit_loop]
  | cons h t ih =>
    simp only [List.map_cons, List.cons_append, prepare_to_exit_loop, List.append_eq]
    rw [ih]
    simp

theorem prepare_loop_reaps_then_fatal (m : Msg)
    (hm1 : ∀ h, m ≠ Msg.reapLayoutDataMsg h) (hm2 : m ≠ Msg.exitNowMsg)
    (r hs : List Nat) (rest : List Msg) :
    prepare_to_exit_loop r (hs.map Msg.reapLayoutDataMsg ++ m :: rest)
      = ExitLoopOutcome.fatal := by
  induction hs generalizing r with
  | nil =>
    cases m with
    | addStylesheetMsg => rfl
    | reflowMsg d => rfl
    | queryMsg q => rfl
    | reapLayoutDataMsg h => exact absurd rfl (hm1 h)
    | prepareToExitMsg => rfl
    | exitNowMsg => exact absurd rfl hm2
  | cons h t ih =>
    simp only [List.map_cons, List.cons_append, prepare_to_exit_loop, List.append_eq]
    rw [ih]

/-! Claim theorems. -/

/-- C1: for every hit-test query on the cached display-list collection, the
resolver scans display lists from the topmost (last-painted) list down to
the bottom; within one list it first recurses into clip items' nested child
lists, then scans the remaining non-clip items in reverse paint order, and
it returns the first candidate whose bounds contain the query point; when
no candidate in any list contains the point it returns the no-hit value
(`Err(())`, an ordinary reply) rather than an error. -/
theorem c1_hit_test_scan_order (lists : List (List DisplayItem)) (x y : Au) :
    hitTestLists lists x y = hitTestListsSpec lists x y := by
  rw [hitTestLists, hitTestListsSpec, hitTestScan_eq]

/-- C2: the content-box query scans every display list in the collection,
descending into clip items' nested child lists, and returns the union of
the bounds of all items tagged with the query node, or the zero rectangle
when that node produced no display items. -/
theorem c2_content_box_union (node : Nat) (lists : List (List DisplayItem)) :
    contentBoxQuery node lists = contentBoxQuerySpec node lists := by
  rw [contentBoxQuery, contentBoxQuerySpec, foldl_union_lists]
  cases h : (lists.map (boxesForNode node)).flatten with
  | nil => rfl
  | cons r rs =>
    rw [List.foldl_cons]
    show (rs.foldl addBox (addBox none r)).getD zero_rect = rs.foldl Rect.union r
    rw [addBox, foldl_addBox_some]
    rfl

/-- C3: the display-goal reflow chooses the document background color by
scanning the html/body elements in document (preorder) order, taking the
first whose resolved color is not the transparent `rgba(0, 0, 0, 0)`, and
defaults to opaque white when no element yields one. -/
theorem c3_background_color_choice (dom : List (NodeTypeId × Color)) :
    backgroundColorScan dom = backgroundColorSpec dom := by
  induction dom with
  | nil => rfl
  | cons nc rest ih =>
    obtain ⟨ty, c⟩ := nc
    rw [backgroundColorScan, backgroundColorSpec]
    rw [backgroundColorSpec] at ih
    cases hty : isHtmlOrBody ty with
    | false => simpa [List.filter_cons, hty] using ih
    | true =>
      by_cases hc : c = transparentBlack
      · simpa [List.filter_cons, hty, hc, List.find?_cons] using ih
      · simp [List.filter_cons, hty, hc, List.find?_cons]

/-- C4: the all-style-damage flag is set exactly when the reflow's damage
level is `ContentChangedDocumentDamage` or the viewport size differs from
the recorded screen size, and whenever it is set, after the top-down
damage-propagation pass every flow in the tree carries the complete damage
set, regardless of the per-flow input damage. -/
theorem c4_all_style_damage_full_tree (level : DocumentDamageLevel)
    (old cur : ScreenSize) (pd : RestyleDamage → RestyleDamage)
    (t : FlowTree FlowBase) :
    (allStyleDamageFlag level old cur = true ↔
      (level = DocumentDamageLevel.contentChangedDocumentDamage ∨ old ≠ cur))
    ∧ (allStyleDamageFlag level old cur = true →
        treeAllDamage
          (propagateDamage (allStyleDamageFlag level old cur) pd t) = true) := by
  constructor
  · cases level <;> simp [allStyleDamageFlag]
  · intro h
    rw [h]
    exact propagateDamage_all pd t

theorem c4_witness :
    treeAllDamage
      (propagateDamage
        (allStyleDamageFlag DocumentDamageLevel.contentChangedDocumentDamage
          (0, 0) (0, 0))
        (fun d => d)
        (FlowTree.node ⟨⟨false, false, false⟩, ⟨false⟩⟩ [])) = true :=
  (c4_all_style_damage_full_tree DocumentDamageLevel.contentChangedDocumentDamage
    (0, 0) (0, 0) (fun d => d)
    (FlowTree.node ⟨⟨false, false, false⟩, ⟨false⟩⟩ [])).2 (by decide)

/-- C5: in the assign-heights-and-store-overflow pass, every flow whose
flags mark it as requiring in-order processing is skipped — the pass checks
the flag and leaves `assign_height`/`store_overflow` unrun on that flow —
while every flow without the flag is processed. -/
theorem c5_inorder_flows_skipped (ah : FlowBase → List FlowBase → FlowBase)
    (t : FlowTree FlowBase) : assignHeightsPass ah t = assignHeightsSpec ah t :=
  assignHeightsPass_eq_spec ah t

/-- C6: after a `PrepareToExitMsg` is handled the task sits in the
quiescent loop, in which every `ReapLayoutDataMsg` is accepted and
processed, an `ExitNowMsg` terminates the loop, and any other message kind
is a fatal protocol violation. -/
theorem c6_prepare_to_exit_protocol (env : ReflowEnv) (s : LayoutTaskState)
    (hs : List Nat) (rest : List Msg) :
    (handle_request env s Msg.prepareToExitMsg
        (hs.map Msg.reapLayoutDataMsg ++ Msg.exitNowMsg :: rest)
      = RequestResult.quiescent (ExitLoopOutcome.exited (s.reaped ++ hs)))
    ∧ (∀ m : Msg, (∀ h, m ≠ Msg.reapLayoutDataMsg h) → m ≠ Msg.exitNowMsg →
        handle_request env s Msg.prepareToExitMsg
            (hs.map Msg.reapLayoutDataMsg ++ m :: rest)
          = RequestResult.quiescent ExitLoopOutcome.fatal) := by
  constructor
  · rw [handle_request, prepare_loop_reaps_then_exit]
  · intro m hm1 hm2
    rw [handle_request, prepare_loop_reaps_then_fatal m hm1 hm2]

/-- An inert collaborator environment used by the closed witnesses. -/
def envW : ReflowEnv :=
  { bw := fun b _ => b, aw := fun _ b => b, ah := fun b _ => b,
    pd := fun d => d, pu := fun d => d, build := fun _ => [], dom := [],
    flow_tree := FlowTree.node ⟨⟨false, false, false⟩, ⟨false⟩⟩ [] }

theorem c6_witness :
    (handle_request envW (LayoutTask.new 1) Msg.prepareToExitMsg
        ([Msg.reapLayoutDataMsg 5] ++ Msg.exitNowMsg :: [])
      = RequestResult.quiescent
          (ExitLoopOutcome.exited ((LayoutTask.new 1).reaped ++ [5])))
    ∧ (handle_request envW (LayoutTask.new 1) Msg.prepareToExitMsg
        ([Msg.reapLayoutDataMsg 5] ++ Msg.addStylesheetMsg :: [])
      = RequestResult.quiescent ExitLoopOutcome.fatal) := by
  have h := c6_prepare_to_exit_protocol envW (LayoutTask.new 1) [5] []
  exact ⟨h.1, h.2 Msg.addStylesheetMsg
    (fun h' hc => Msg.noConfusion hc) (fun hc => Msg.noConfusion hc)⟩

/-- C7: a configured worker count of one creates no parallel pool and the
reflow dispatch picks the sequential solver; invoking
`solve_constraints_parallel` with no pool configured is the fatal
invariant violation (`fail!`, modelled as the error value). -/
theorem c7_single_thread_sequential :
    (LayoutTask.new 1).parallel_traversal = none
    ∧ solver_path (LayoutTask.new 1).parallel_traversal = SolverPath.sequential
    ∧ ∀ (bw : FlowBase → List FlowBase → FlowBase)
        (aw : Option FlowBase → FlowBase → FlowBase)
        (ah : FlowBase → List FlowBase → FlowBase) (t : FlowTree FlowBase),
        solve_constraints_parallel none bw aw ah t = Except.error () := by
  refine ⟨rfl, rfl, ?_⟩
  intro bw aw ah t
  rfl

/-- C8: for every flow tree (and damage assignment, which this code never
consults while solving), any complete run of the parallel solving path — at
any worker count, i.e. any interleaving respecting the scheduler's
children-before-parent and exactly-once rules — produces exactly the tree
the sequential `solve_constraints` produces, so final positions, sizes and
overflow are identical. -/
theorem c8_parallel_equals_sequential (bw : FlowBase → List FlowBase → FlowBase)
    (aw : Option FlowBase → FlowBase → FlowBase)
    (ah : FlowBase → List FlowBase → FlowBase) (t t' : FlowTree FlowBase)
    (h : ParallelSolve bw aw ah t t') : t' = solve_constraints bw aw ah t := by
  obtain ⟨t1, t2, h1, h2, h3⟩ := h
  have e1 := parPhase_eq bw t t1 h1
  have e3 := parPhase_eq (heightsStep ah) t2 t' h3
  rw [solve_constraints, assignHeightsPass_eq_postorder, e3, h2, e1]

/-- A one-flow base record used by the C8 witness. -/
def bW : FlowBase := ⟨⟨false, false, false⟩, ⟨false⟩⟩

theorem c8_witness :
    FlowTree.node bW []
      = solve_constraints (fun b _ => b) (fun _ b => b) (fun b _ => b)
          (FlowTree.node bW []) := by
  apply c8_parallel_equals_sequential (fun b _ => b) (fun _ b => b)
    (fun b _ => b) (FlowTree.node bW []) (FlowTree.node bW [])
  have hblank : blankTree (FlowTree.node bW [])
      = FlowTree.node (bW, (none : Option FlowBase)) [] := by
    rw [blankTree, treeMap, forestMap]
  refine ⟨FlowTree.node bW [], FlowTree.node bW [], ?_, ?_, ?_⟩
  · refine ⟨FlowTree.node (bW, some bW) [], ?_, ?_, ?_⟩
    · rw [hblank]
      exact Relation.ReflTransGen.single (PStep.fill bW [] [] rfl)
    · rw [treeFilled, forestFilled]
      rfl
    · rw [stripTree_node, forestMap]
      rfl
  · rw [preorderMap, preorderForest]
  · refine ⟨FlowTree.node (bW, some (heightsStep (fun b _ => b) bW [])) [], ?_, ?_, ?_⟩
    · rw [hblank]
      exact Relation.ReflTransGen.single (PStep.fill bW [] [] rfl)
    · rw [treeFilled, forestFilled]
      rfl
    · rw [stripTree_node, forestMap]
      rw [heightsStep]
      simp [should_process, bW]

/-- C9: a reflow whose goal is `ReflowForDisplay` replaces the cached
display-list collection wholesale with the newly built collection and sends
that same collection to the renderer, while a reflow with any other goal
builds no display list, sends nothing, and leaves the cache unchanged. -/
theorem c9_display_goal_replaces_cache (env : ReflowEnv) (s : LayoutTaskState)
    (data : Reflow) :
    (data.goal = ReflowGoal.reflowForDisplay →
      (handle_reflow env s data).1.display_list_collection
          = some (env.build (solvedLayoutRoot env s data))
        ∧ (handle_reflow env s data).2
            = [{ display_list_collection := env.build (solvedLayoutRoot env s data),
                 color := backgroundColorScan env.dom }])
    ∧ (data.goal ≠ ReflowGoal.reflowForDisplay →
      (handle_reflow env s data).1.display_list_collection
          = s.display_list_collection
        ∧ (handle_reflow env s data).2 = []) := by
  constructor
  · intro h
    rw [handle_reflow]
    simp [h]
  · intro h
    rw [handle_reflow]
    simp [h]

/-- A display-goal reflow request used by the witnesses. -/
def dataDisplayW : Reflow :=
  { damage_level := DocumentDamageLevel.reflowDocumentDamage,
    goal := ReflowGoal.reflowForDisplay, window_size := (0, 0) }

/-- A non-display reflow request used by the witnesses. -/
def dataQueryW : Reflow :=
  { damage_level := DocumentDamageLevel.reflowDocumentDamage,
    goal := ReflowGoal.reflowForScriptQuery, window_size := (0, 0) }

theorem c9_witness :
    ((handle_reflow envW (LayoutTask.new 1) dataDisplayW).1.display_list_collection
        = some (envW.build (solvedLayoutRoot envW (LayoutTask.new 1) dataDisplayW)))
    ∧ (handle_reflow envW (LayoutTask.new 1) dataQueryW).1.display_list_collection
        = (LayoutTask.new 1).display_list_collection := by
  refine ⟨((c9_display_goal_replaces_cache envW (LayoutTask.new 1) dataDisplayW).1 rfl).1, ?_⟩
  exact ((c9_display_goal_replaces_cache envW (LayoutTask.new 1) dataQueryW).2
    (fun hc => ReflowGoal.noConfusion hc)).1

/-- C10: before any display-goal reflow has populated the cached
display-list collection the cache is `none` — it is `none` at task creation
and stays `none` across non-display reflows — and every query kind
(content box, content boxes, hit test) received in that state fails fatally
(the handler unwraps the absent cache) instead of returning an empty/zero
or no-hit reply. -/
theorem c10_query_before_display_reflow_fatal (layout_threads : Nat)
    (env : ReflowEnv) (s : LayoutTaskState) (data : Reflow) (q : LayoutQuery) :
    ((LayoutTask.new layout_threads).display_list_collection = none)
    ∧ (data.goal ≠ ReflowGoal.reflowForDisplay →
        s.display_list_collection = none →
        (handle_reflow env s data).1.display_list_collection = none)
    ∧ handle_query none q = QueryOutcome.fatal := by
  refine ⟨rfl, ?_, ?_⟩
  · intro hg hnone
    rw [handle_reflow]
    simp [hg, hnone]
  · cases q <;> rfl

theorem c10_witness :
    (handle_reflow envW (LayoutTask.new 1) dataQueryW).1.display_list_collection = none
    ∧ handle_query none (LayoutQuery.hitTest 0 0) = QueryOutcome.fatal := by
  have h := c10_query_before_display_reflow_fatal 1 envW (LayoutTask.new 1)
    dataQueryW (LayoutQuery.hitTest 0 0)
  exact ⟨h.2.1 (fun hc => ReflowGoal.noConfusion hc) rfl, h.2.2⟩

end Servo






